import Mathlib

/-!
Verification of the style-sensitive parsing engine of the `parsedict`
repository, shallowly embedded in Lean 4.

The embedding follows the Python sources:
  * `lexer.py`              — `Format`, `Character`, `extract_entries`
  * `parser/helpers.py`     — `normalize_char`, `detect_script`, `plain_text`,
                              `formatted_text`, `format_pred`, `chars`
  * `parser/markup.py`      — markup nodes

External libraries are modelled explicitly:
  * Python's `str.isspace` is the fixed Unicode whitespace set (`pyIsSpace`).
  * `unicodedata.name` is an arbitrary name oracle (`uname` parameter).
  * `unicodedata.normalize("NFC", ...)` is an arbitrary function parameter
    (`nfc`); no claim depends on its internals.
  * the `regex` library's `fullmatch(text, partial=True)` is modelled with a
    regular-expression AST and Brzozowski derivatives: a full match is
    membership, a partial match means the text is a proper prefix of some
    member of the pattern's language, and `None` means not even that.
-/

namespace Parsedict

/-- Python's `str.isspace` test: the fixed set of Unicode whitespace
codepoints recognised by CPython. -/
def pyIsSpace (c : Char) : Bool :=
  [0x09, 0x0a, 0x0b, 0x0c, 0x0d, 0x1c, 0x1d, 0x1e, 0x1f, 0x20, 0x85, 0xa0,
   0x1680, 0x2000, 0x2001, 0x2002, 0x2003, 0x2004, 0x2005, 0x2006, 0x2007,
   0x2008, 0x2009, 0x200a, 0x2028, 0x2029, 0x202f, 0x205f, 0x3000].contains c.toNat

/-- Structure `lexer.Format`: the formatting style of a character.  The Python
dataclass has exactly these five fields (there is no `color` field; the
`color` branches in `helpers.py` would raise `AttributeError` and are dead). -/
structure Format where
  font : Option String := none
  bold : Bool := false
  italic : Bool := false
  sup : Bool := false
  sub : Bool := false
deriving DecidableEq, Repr

/-- The value `Format()` with all defaults, as used for synthetic newline characters. -/
def defaultFormat : Format := {}

/-- Structure `lexer.Character`: a single Unicode codepoint plus its formatting. -/
structure Character where
  char : Char
  format : Format
deriving DecidableEq, Repr

/-- Python slice `chars[a:b]` (for the in-bounds, `a ≤ b` uses that occur). -/
def pySlice {α : Type} (l : List α) (a b : Nat) : List α :=
  (l.drop a).take (b - a)

/-! ## Normalizer (`parser/helpers.py`) -/

/-- Table `FONT_CONV`: glyph-substitution tables keyed by font name. -/
def FONT_CONV : List (String × List (Char × String)) :=
  [("Lingua",
     [('&', "u̯"),
      ('2', "i̮"),
      ('8', "u̇"),
      ('@', "i̯"),
      ('К', "ə̑"),
      ('Ы', "o̭"),
      ('ц', "e̮"),
      ('ќ', "č́")]),
   ("1 FU",
     [('¹', "i̯")])]

/-- Script tags accepted by the normalizer (`Latn` / `Cyrl`). -/
inductive Script where
  | Latn
  | Cyrl
deriving DecidableEq, Repr

/-- Table `SCRIPT_CONV`: per-script substitution tables. -/
def SCRIPT_CONV : Script → List (Char × String)
  | .Latn =>
    [('а', "a"),
     ('и', "u"),
     ('п', "n"),
     ('х', "x"),
     ('ш', "ɯ"),
     ('Ө', "Ɵ"),
     ('ө', "ɵ")]
  | .Cyrl =>
    [('á', "а́"),
     ('é', "е́"),
     ('ó', "о́"),
     ('ÿ', "ӱ"),
     ('ɵ', "ө"),
     ('c', "с")]

/-- Table `ALWAYS_CONV`: unconditional substitutions (legacy typo codes). -/
def ALWAYS_CONV : List (Char × String) :=
  [('ѳ', "ө")]

/-- Error raised by `normalize_char` when a special font lacks a glyph
(`raise Exception(f"No Unicode symbol matching …")`). -/
inductive NormError where
  | unsupportedGlyph (code : Char) (font : String)
deriving DecidableEq, Repr

/-- Look up the substitution table registered for a font, if any
(`c.format.font in FONT_CONV`). -/
def fontTable (font : Option String) : Option (List (Char × String)) :=
  match font with
  | none => none
  | some f => FONT_CONV.lookup f

/-- The part of `normalize_char` after the whitespace and font checks:
script table, then `ALWAYS_CONV`, then the character itself.  (The
Unicode-consistency check in the source only logs and does not affect the
result.) -/
def normalizeTail (script : Option Script) (c : Character) : String :=
  match script with
  | some sc =>
    match (SCRIPT_CONV sc).lookup c.char with
    | some s => s
    | none =>
      match ALWAYS_CONV.lookup c.char with
      | some s => s
      | none => String.singleton c.char
  | none =>
    match ALWAYS_CONV.lookup c.char with
    | some s => s
    | none => String.singleton c.char

/-- Function `normalize_char`: convert a character to its normal form.  Whitespace
becomes a single space; a known phonetic font uses its table and fails on an
unmapped codepoint; otherwise the script table, the always table, or the
character itself. -/
def normalize_char (script : Option Script) (c : Character) : Except NormError String :=
  if pyIsSpace c.char then .ok " "
  else
    match c.format.font with
    | some f =>
      match FONT_CONV.lookup f with
      | some table =>
        match table.lookup c.char with
        | some s => .ok s
        | none => .error (.unsupportedGlyph c.char f)
      | none => .ok (normalizeTail script c)
    | none => .ok (normalizeTail script c)

/-- Function `plain_text(chars, normalize=False, **kwargs)`: concatenate the
normalized characters; the first raised glyph error propagates. -/
def plainTextNoNorm (script : Option Script) : List Character → Except NormError String
  | [] => .ok ""
  | c :: rest => do
    let s ← normalize_char script c
    let r ← plainTextNoNorm script rest
    pure (s ++ r)

/-- Function `plain_text(chars, normalize=True, **kwargs)`: the concatenation passed
through Unicode canonical composition (modelled by the `nfc` parameter). -/
def plain_text (nfc : String → String) (script : Option Script)
    (chars : List Character) : Except NormError String :=
  (plainTextNoNorm script chars).map nfc

/-! ## Script detector (`detect_script`) -/

/-- Substring test on char lists (Python's `needle in haystack`). -/
def subList (needle : List Char) : List Char → Bool
  | [] => needle.isEmpty
  | c :: rest => needle.isPrefixOf (c :: rest) || subList needle rest

/-- Substring test on strings (Python's `"LATIN" in name`). -/
def containsSub (needle hay : String) : Bool :=
  subList needle.data hay.data

/-- The fixed ignore-set of ambiguous codepoints in `detect_script`. -/
def IGNORE : List Char :=
  ['ɵ', 'ш', 'ѳ', 'Ө', 'ө']

/-- Whether a character is excluded from the `detect_script` tally:
its font has a substitution table, or its codepoint is in the ignore set. -/
def detectSkip (c : Character) : Bool :=
  (fontTable c.format.font).isSome || IGNORE.contains c.char

/-- The accumulator loop of `detect_script`: `(total, latin, cyrillic)`
counters over the characters.  `uname` models `unicodedata.name(c, "")`. -/
def detectLoop (uname : Char → String) :
    List Character → Nat × Nat × Nat → Nat × Nat × Nat
  | [], acc => acc
  | c :: rest, (total, latin, cyr) =>
    if detectSkip c then
      detectLoop uname rest (total, latin, cyr)
    else if containsSub "LATIN" (uname c.char) then
      detectLoop uname rest (total + 1, latin + 1, cyr)
    else if containsSub "CYRILLIC" (uname c.char) then
      detectLoop uname rest (total + 1, latin, cyr + 1)
    else
      detectLoop uname rest (total + 1, latin, cyr)

/-- Function `detect_script`: heuristically guess the writing script.  The float
threshold `cyrillic >= 0.2 * total` is modelled exactly by the rational
comparison `total ≤ 5 * cyrillic` (for the input sizes in scope the IEEE
double computation agrees with the exact rational one). -/
def detect_script (uname : Char → String) (chars : List Character) : Script :=
  match detectLoop uname chars (0, 0, 0) with
  | (total, latin, cyr) =>
    if latin < cyr && total ≤ 5 * cyr then .Cyrl else .Latn

/-- Spec-side view: the characters that actually enter the tally. -/
def talliedChars (chars : List Character) : List Character :=
  chars.filter (fun c => !detectSkip c)

/-- Spec-side view: tallied characters whose Unicode name contains
`LATIN`. -/
def latinCount (uname : Char → String) (chars : List Character) : Nat :=
  (talliedChars chars).countP (fun c => containsSub "LATIN" (uname c.char))

/-- Spec-side view: tallied characters counted as Cyrillic (name contains
`CYRILLIC`; the source's `elif` gives `LATIN` precedence). -/
def cyrCount (uname : Char → String) (chars : List Character) : Nat :=
  (talliedChars chars).countP
    (fun c => !containsSub "LATIN" (uname c.char) &&
              containsSub "CYRILLIC" (uname c.char))

/-! ## Entry segmenter (`lexer.extract_entries`) -/

/-- Set `CONTINUATORS`: section-continuation marker glyphs. -/
def CONTINUATORS : List Char := ['♦', '●', '○']

/-- The synthetic paragraph separator `Character('\n', Format())`. -/
def newlineChar : Character := ⟨'\n', defaultFormat⟩

/-- Whether a paragraph's first character is bold and not a continuation
marker (`chars[0].format.bold and chars[0].char not in CONTINUATORS`). -/
def isEntryStart (p : List Character) : Bool :=
  match p with
  | [] => false
  | c0 :: _ => c0.format.bold && !CONTINUATORS.contains c0.char

/-- The generator loop of `extract_entries` with its `buf` state made
explicit; yielded buffers are collected into a list. -/
def extractGo : List (List Character) → List Character → List (List Character)
  | [], buf => if buf.isEmpty then [] else [buf]
  | p :: ps, buf =>
    if p.length < 3 then
      (if buf.isEmpty then [] else [buf]) ++ extractGo ps []
    else if isEntryStart p then
      (if buf.isEmpty then [] else [buf]) ++ extractGo ps p
    else
      extractGo ps (buf ++ newlineChar :: p)

/-- Function `extract_entries`: group paragraphs into entry buffers. -/
def extract_entries (pars : List (List Character)) : List (List Character) :=
  extractGo pars []

/-- Modelled from the spec (§4.6): flushing a buffer yields it iff it is
non-empty. -/
def segFlush (buf : List Character) : List (List Character) :=
  if buf.isEmpty then [] else [buf]

/-- Modelled from the spec (§4.6): one paragraph step of the entry
segmenter, written as a fold over `(yielded, buffer)` state. -/
def segStep (st : List (List Character) × List Character) (p : List Character) :
    List (List Character) × List Character :=
  if p.length < 3 then (st.1 ++ segFlush st.2, [])
  else if isEntryStart p then (st.1 ++ segFlush st.2, p)
  else (st.1, st.2 ++ newlineChar :: p)

/-- Modelled from the spec (§4.6): the entry segmenter as a left fold, with
the final non-empty buffer flushed at end of input. -/
def segmentSpec (pars : List (List Character)) : List (List Character) :=
  match pars.foldl segStep ([], []) with
  | (out, buf) => out ++ segFlush buf

/-! ## Regular expressions

Model of the external `regex` library as used by `chars`: an AST with a
derivative-based matcher.  `fullmatch(text, partial=True)` returns a full
match when the text is in the pattern's language, a partial match when the
text is a proper prefix of some word of the language, and `None` otherwise.
-/

/-- Regular-expression abstract syntax. -/
inductive RE where
  | emptyset
  | eps
  | chr (c : Char)
  | anychar
  | alt (r s : RE)
  | cat (r s : RE)
  | star (r : RE)
deriving DecidableEq, Repr

/-- Whether the empty word is in the language. -/
def RE.nullable : RE → Bool
  | .emptyset => false
  | .eps => true
  | .chr _ => false
  | .anychar => false
  | .alt r s => r.nullable || s.nullable
  | .cat r s => r.nullable && s.nullable
  | .star _ => true

/-- Brzozowski derivative with respect to one character. -/
def RE.deriv : RE → Char → RE
  | .emptyset, _ => .emptyset
  | .eps, _ => .emptyset
  | .chr c, a => if a = c then .eps else .emptyset
  | .anychar, _ => .eps
  | .alt r s, a => .alt (r.deriv a) (s.deriv a)
  | .cat r s, a =>
    if r.nullable then .alt (.cat (r.deriv a) s) (s.deriv a)
    else .cat (r.deriv a) s
  | .star r, a => .cat (r.deriv a) (.star r)

/-- Derivative with respect to a word. -/
def RE.derivs (r : RE) (w : List Char) : RE :=
  w.foldl RE.deriv r

/-- Full match: the word is in the pattern's language. -/
def RE.full (r : RE) (w : List Char) : Bool :=
  (r.derivs w).nullable

/-- Language emptiness (no word at all is accepted). -/
def RE.void : RE → Bool
  | .emptyset => true
  | .eps => false
  | .chr _ => false
  | .anychar => false
  | .alt r s => r.void && s.void
  | .cat r s => r.void || s.void
  | .star _ => false

/-- The three possible outcomes of `pattern.fullmatch(text, partial=True)`. -/
inductive MatchKind where
  | fullMatch
  | partialMatch
  | noMatch
deriving DecidableEq, Repr

/-- Outcome of `pattern.fullmatch(text, partial=True)` in the model. -/
def matchKind (r : RE) (w : List Char) : MatchKind :=
  let d := r.derivs w
  if d.nullable then .fullMatch
  else if d.void then .noMatch
  else .partialMatch

/-! ## The `chars` matcher primitive (`parser/helpers.py`) -/

/-- Function `format_pred(**kwargs)`: predicate on a character's formatting.  `none`
means the keyword was absent (feature unchecked).  Whitespace always
satisfies the predicate.  (A `color` keyword would read the non-existent
`Format.color` attribute and is therefore not representable.) -/
def format_pred (boldOpt italicOpt : Option Bool) (c : Character) : Bool :=
  pyIsSpace c.char ||
    ((match boldOpt with
      | none => true
      | some b => c.format.bold == b) &&
     (match italicOpt with
      | none => true
      | some b => c.format.italic == b))

/-- Result type of a parser (`parsy.Result`): success with the next index
and the consumed characters, or failure at an index with the pattern that
was expected. -/
inductive PResult where
  | success (nextIndex : Nat) (value : List Character)
  | failure (index : Nat) (expected : RE)
deriving DecidableEq, Repr

/-- The scanning loop inside `chars`: walk the stream while the style
predicate holds, growing the accumulated characters; stop on a hopeless
(`None`) match; remember the length of the last full match. -/
def charsScan (p : RE) (pred : Character → Bool) :
    List Character → List Character → Option Nat → List Character × Option Nat
  | [], acc, lastGood => (acc, lastGood)
  | c :: rest, acc, lastGood =>
    if pred c then
      let acc2 := acc ++ [c]
      match matchKind p (acc2.map (·.char)) with
      | .noMatch => (acc2, lastGood)
      | .partialMatch => charsScan p pred rest acc2 lastGood
      | .fullMatch => charsScan p pred rest acc2 (some acc2.length)
    else (acc, lastGood)

/-- The `consumer` function built by `chars`: succeed consuming the longest
fully-matched prefix, or fail at the start index. -/
def charsP (p : RE) (pred : Character → Bool)
    (stream : List Character) (index : Nat) : PResult :=
  match charsScan p pred (stream.drop index) [] none with
  | (acc, some n) => .success (index + n) (acc.take n)
  | (_, none) => .failure index p

/-- Function `chars(pattern, **kwargs)`: the styled-run parser, with the style
options interpreted by `format_pred`. -/
def chars (p : RE) (boldOpt italicOpt : Option Bool)
    (stream : List Character) (index : Nat) : PResult :=
  charsP p (format_pred boldOpt italicOpt) stream index

/-! ## Markup tree builder (`formatted_text`)

The tracked attributes are names of `Format` fields.  `Format` has the four
boolean fields below (plus `font`); the `color` attribute mentioned in
`helpers.py` does not exist on `Format` (reading it would raise), so the
`data` dictionary on markup nodes is always empty and is omitted here.
-/

/-- A trackable formatting attribute (a boolean `Format` field name). -/
inductive Attr where
  | bold
  | italic
  | sup
  | sub
deriving DecidableEq, Repr

/-- Python `getattr(format, attr)` for the boolean attributes. -/
def getattrB (f : Format) : Attr → Bool
  | .bold => f.bold
  | .italic => f.italic
  | .sup => f.sup
  | .sub => f.sub

/-- Type `markup.MarkupNode`: a plain string or a tagged node with children. -/
inductive MarkupNode where
  | text (s : String)
  | node (tag : Attr) (children : List MarkupNode)

/-- Type `markup.Markup`: a block of marked up text. -/
structure Markup where
  content : List MarkupNode

/-- The mutable state of `formatted_text`: the segment-start cursor `i`, the
root context's children (`stack[0]`), the open levels above the root with
the head of the list being the deepest (top of the Python stack), and the
previously active attribute projection (`format`). -/
structure BState where
  i : Nat
  root : List MarkupNode
  levels : List (Attr × List MarkupNode)
  fmt : Option (List Bool)

/-- Append a finished node to the currently deepest open context
(`stack[-1].append(...)`). -/
def appendTop (n : MarkupNode) (st : BState) : BState :=
  match st.levels with
  | [] => { st with root := st.root ++ [n] }
  | (a, cs) :: rest => { st with levels := (a, cs ++ [n]) :: rest }

/-- Python truthiness of the `format` state variable: `None` and the empty
tuple are both falsy (`if not format or ...`). -/
def fmtFalsy : Option (List Bool) → Bool
  | none => true
  | some l => l.isEmpty

/-- Python `str.rstrip()` on the character list of a string. -/
def rstripList (l : List Char) : List Char :=
  (l.reverse.dropWhile pyIsSpace).reverse

/-- Python `str.rstrip()`. -/
def rstripStr (s : String) : String :=
  ⟨rstripList s.data⟩

/-- Function `push_node(going_down)`: flush the pending text segment `chars[i:j]` as
a string node under the deepest open context, trimming trailing whitespace
(and leaving it for the next segment) when `going_down`.  `nfc` models
`unicodedata.normalize("NFC", ...)`. -/
def pushNode (nfc : String → String) (script : Option Script)
    (chars : List Character) (j : Nat) (goingDown : Bool) (st : BState) :
    Except NormError BState :=
  if j = st.i then pure st
  else do
    let text ← plainTextNoNorm script (pySlice chars st.i j)
    let stripped := rstripStr text
    if goingDown && stripped.length != text.length then
      let stripWidth := text.length - stripped.length
      pure (appendTop (.text (nfc stripped)) { st with i := j - stripWidth })
    else
      pure (appendTop (.text (nfc text)) { st with i := j })

/-- Pop one stack level, wrapping its children into a node appended to its
parent (`node = tuple(stack.pop()); stack[-1].append(node)`). -/
def popLevel (st : BState) : BState :=
  match st.levels with
  | [] => st
  | (a, cs) :: rest =>
    appendTop (.node a cs) { st with levels := rest }

/-- Pop `n` stack levels. -/
def popN : Nat → BState → BState
  | 0, st => st
  | n + 1, st => popN n (popLevel st)

/-- Function `collapse_stack(lowest)` expressed by the number `n` of levels it pops
(`lowest = len(stack) - n`): flush the pending segment, then pop `n`
levels. -/
def collapseN (nfc : String → String) (script : Option Script)
    (chars : List Character) (j : Nat) (n : Nat) (st : BState) :
    Except NormError BState := do
  let st1 ← pushNode nfc script chars j true st
  pure (popN n st1)

/-- How many levels the conflict scan closes: the Python loop walks the
stack deepest-first recording every level whose tag is no longer asserted
by the new format (`node_matches_format` fails), and keeps the shallowest
such level; closing down to it pops that many levels.  Only a level's tag
is consulted (`getattr(format, node[0])`; the `color` branch is dead). -/
def popCountG {β : Type} (f : Format) : List (Attr × β) → Nat
  | [] => 0
  | (a, _) :: rest =>
    let r := popCountG f rest
    if r ≠ 0 then r + 1
    else if !getattrB f a then 1
    else 0

/-- The open-contexts loop: for every attribute asserted by the new
projection and not already open on the stack, flush the pending segment
(without trimming) and push a fresh context for it. -/
def openLoop (nfc : String → String) (script : Option Script)
    (chars : List Character) (j : Nat) :
    List (Attr × Bool) → BState → Except NormError BState
  | [], st => pure st
  | (a, v) :: rest, st =>
    if v && !st.levels.any (fun l => l.1 = a) then do
      let st1 ← pushNode nfc script chars j false st
      openLoop nfc script chars j rest
        { st1 with levels := (a, []) :: st1.levels }
    else
      openLoop nfc script chars j rest st

/-- The body of the `while` loop of `formatted_text` for one character at
scan index `j`: whitespace never triggers the attribute-change check;
otherwise, on a projection change, close conflicting levels, open newly
asserted ones, and remember the projection. -/
def processChar (nfc : String → String) (script : Option Script)
    (attrs : List Attr) (chars : List Character) (c : Character) (j : Nat)
    (st : BState) : Except NormError BState :=
  if pyIsSpace c.char then pure st
  else
    let newFormat := attrs.map (getattrB c.format)
    if fmtFalsy st.fmt || st.fmt ≠ some newFormat then do
      let n := popCountG c.format st.levels
      let st1 ←
        if n ≠ 0 then collapseN nfc script chars j n st
        else pure st
      let st2 ← openLoop nfc script chars j (attrs.zip newFormat) st1
      pure { st2 with fmt := some newFormat }
    else
      pure st

/-- The `while j < len(chars)` loop, scanning the suffix of `chars` that
starts at index `j`. -/
def buildLoop (nfc : String → String) (script : Option Script)
    (attrs : List Attr) (chars : List Character) :
    List Character → Nat → BState → Except NormError BState
  | [], _, st => pure st
  | c :: rest, j, st => do
    let st1 ← processChar nfc script attrs chars c j st
    buildLoop nfc script attrs chars rest (j + 1) st1

/-- Function `formatted_text(chars, markup=attrs, ...)`: run the scan from the empty
root state; if a pending segment remains (`j > i`), flush it and close all
levels down to the root; return the root's children. -/
def formatted_text (nfc : String → String) (script : Option Script)
    (attrs : List Attr) (chars : List Character) : Except NormError Markup := do
  let st ← buildLoop nfc script attrs chars chars 0 ⟨0, [], [], none⟩
  if st.i < chars.length then do
    let st1 ← pushNode nfc script chars chars.length true st
    let st2 := popN st1.levels.length st1
    pure ⟨st2.root⟩
  else
    pure ⟨st.root⟩

/-! ## Markup skeletons

The skeleton of a markup erases every string leaf and keeps only the tagged
nodes; it captures the "non-leaf node boundaries" of the tree.  The builder
state projected onto skeletons evolves independently of all text, which is
the key to the whitespace-neutrality and duplicate-tag claims.
-/

/-- The tag-only shape of a markup node. -/
inductive SkelNode where
  | mk (tag : Attr) (children : List SkelNode)

mutual

/-- Skeleton of one markup node (`none` for a string leaf). -/
def skelOf : MarkupNode → Option SkelNode
  | .text _ => none
  | .node t cs => some (.mk t (skelListOf cs))

/-- Skeletons of a list of markup nodes, leaves dropped. -/
def skelListOf : List MarkupNode → List SkelNode
  | [] => []
  | n :: ns =>
    match skelOf n with
    | none => skelListOf ns
    | some s => s :: skelListOf ns

end

mutual

/-- Returns `true` iff the node's tag avoids `forbidden` and, recursively, every
descendant's tag avoids its own ancestors' tags: no root-to-leaf path
through this node repeats a tag. -/
def nodeOkB (forbidden : List Attr) : MarkupNode → Bool
  | .text _ => true
  | .node t cs => !forbidden.contains t && nodeListOkB (t :: forbidden) cs

/-- Conjunction of `nodeOkB` over a list of siblings. -/
def nodeListOkB (forbidden : List Attr) : List MarkupNode → Bool
  | [] => true
  | n :: ns => nodeOkB forbidden n && nodeListOkB forbidden ns

end

mutual

/-- Analogue of `nodeOkB` for skeletons. -/
def skelOkB (forbidden : List Attr) : SkelNode → Bool
  | .mk t cs => !forbidden.contains t && skelListOkB (t :: forbidden) cs

/-- Conjunction of `skelOkB` over a list of siblings. -/
def skelListOkB (forbidden : List Attr) : List SkelNode → Bool
  | [] => true
  | s :: ss => skelOkB forbidden s && skelListOkB forbidden ss

end

/-- The builder state projected onto skeletons. -/
structure SkelSt where
  root : List SkelNode
  levels : List (Attr × List SkelNode)
  fmt : Option (List Bool)

/-- Skeleton counterpart of `appendTop`. -/
def sAppendTop (n : SkelNode) (st : SkelSt) : SkelSt :=
  match st.levels with
  | [] => { st with root := st.root ++ [n] }
  | (a, cs) :: rest => { st with levels := (a, cs ++ [n]) :: rest }

/-- Skeleton counterpart of `popLevel`. -/
def sPopLevel (st : SkelSt) : SkelSt :=
  match st.levels with
  | [] => st
  | (a, cs) :: rest =>
    sAppendTop (.mk a cs) { st with levels := rest }

/-- Skeleton counterpart of `popN`. -/
def sPopN : Nat → SkelSt → SkelSt
  | 0, st => st
  | n + 1, st => sPopN n (sPopLevel st)

/-- Skeleton counterpart of `openLoop` (no text is flushed). -/
def sOpenLoop : List (Attr × Bool) → SkelSt → SkelSt
  | [], st => st
  | (a, v) :: rest, st =>
    if v && !st.levels.any (fun l => l.1 = a) then
      sOpenLoop rest { st with levels := (a, []) :: st.levels }
    else
      sOpenLoop rest st

/-- Skeleton counterpart of `processChar`: the builder's control decisions
depend only on the character's whitespace-ness, its format projection, and
the tags of the open levels — never on any text. -/
def skelStep (attrs : List Attr) (c : Character) (st : SkelSt) : SkelSt :=
  if pyIsSpace c.char then st
  else
    let newFormat := attrs.map (getattrB c.format)
    if fmtFalsy st.fmt || st.fmt ≠ some newFormat then
      let n := popCountG c.format st.levels
      let st1 := if n ≠ 0 then sPopN n st else st
      let st2 := sOpenLoop (attrs.zip newFormat) st1
      { st2 with fmt := some newFormat }
    else
      st

/-- Skeleton counterpart of `buildLoop`. -/
def skelRun (attrs : List Attr) (cs : List Character) (st : SkelSt) : SkelSt :=
  cs.foldl (fun s c => skelStep attrs c s) st

/-- The non-whitespace characters of a sequence. -/
def nwFilter (cs : List Character) : List Character :=
  cs.filter (fun c => !pyIsSpace c.char)

/-- The skeleton `formatted_text` produces, as a function of the
non-whitespace characters alone: run the skeleton machine and close every
remaining level. -/
def skelOutput (attrs : List Attr) (nws : List Character) : List SkelNode :=
  (sPopN (skelRun attrs nws ⟨[], [], none⟩).levels.length
    (skelRun attrs nws ⟨[], [], none⟩)).root

/-- The abstraction of a builder state to its skeleton state. -/
def absState (st : BState) : SkelSt :=
  ⟨skelListOf st.root, st.levels.map (fun l => (l.1, skelListOf l.2)), st.fmt⟩

/-- Predicate: `t` is a candidate consumption length: positive, within the
style-eligible run of `tail`, and the text of `acc` extended by the first
`t` characters of `tail` fully matches the pattern. -/
def goodLen (p : RE) (pred : Character → Bool)
    (acc tail : List Character) (t : Nat) : Prop :=
  1 ≤ t ∧ t ≤ (tail.takeWhile pred).length ∧
    p.full ((acc ++ tail.take t).map (·.char)) = true

/-- The per-level invariant: each open level's tag is distinct from every
tag below it, and its accumulated children never repeat a tag from the
level's ancestor chain. -/
def levelsOkS : List (Attr × List SkelNode) → Prop
  | [] => True
  | (a, cs) :: rest =>
    ((rest.map Prod.fst).contains a = false) ∧
    skelListOkB (a :: rest.map Prod.fst) cs = true ∧
    levelsOkS rest

/-- The full state invariant of the skeleton machine. -/
def InvS (st : SkelSt) : Prop :=
  skelListOkB [] st.root = true ∧ levelsOkS st.levels

/-! ## Lemmas: script detector -/

theorem detectLoop_counts (uname : Char → String) :
    ∀ (cs : List Character) (t l cy : Nat),
      detectLoop uname cs (t, l, cy) =
        (t + (talliedChars cs).length,
         l + latinCount uname cs,
         cy + cyrCount uname cs) := by
  intro cs
  induction cs with
  | nil =>
    intro t l cy
    simp [detectLoop, talliedChars, latinCount, cyrCount]
  | cons c rest ih =>
    intro t l cy
    by_cases hskip : detectSkip c = true
    · simp [detectLoop, hskip, talliedChars, latinCount, cyrCount,
        List.filter_cons, ih]
    · by_cases hlat : containsSub "LATIN" (uname c.char) = true
      · simp [detectLoop, hskip, hlat, talliedChars, latinCount, cyrCount,
          List.filter_cons, List.countP_cons, ih]
        omega
      · by_cases hcyr : containsSub "CYRILLIC" (uname c.char) = true
        · simp [detectLoop, hskip, hlat, hcyr, talliedChars, latinCount,
            cyrCount, List.filter_cons, List.countP_cons, ih]
          omega
        · simp [detectLoop, hskip, hlat, hcyr, talliedChars, latinCount,
            cyrCount, List.filter_cons, List.countP_cons, ih]
          omega

/-! ## Lemmas: entry segmenter -/

theorem extractGo_foldl :
    ∀ (ps : List (List Character)) (out : List (List Character))
      (buf : List Character),
      out ++ extractGo ps buf =
        (match List.foldl segStep (out, buf) ps with
         | (o, b) => o ++ segFlush b) := by
  intro ps
  induction ps with
  | nil =>
    intro out buf
    simp [extractGo, segFlush]
  | cons p ps ih =>
    intro out buf
    by_cases hlen : p.length < 3
    · have h1 := ih (out ++ segFlush buf) []
      simp only [extractGo, hlen, if_true, List.foldl_cons, segStep, segFlush]
      simp only [segFlush] at h1
      rw [← List.append_assoc]
      exact h1
    · by_cases hstart : isEntryStart p = true
      · have h1 := ih (out ++ segFlush buf) p
        simp only [extractGo, hlen, if_false, hstart, if_true, List.foldl_cons,
          segStep, segFlush]
        simp only [segFlush] at h1
        rw [← List.append_assoc]
        exact h1
      · have h1 := ih out (buf ++ newlineChar :: p)
        simp only [extractGo, hlen, if_false, hstart, List.foldl_cons,
          segStep, segFlush]
        exact h1

/-! ## Lemmas: regular expressions -/

theorem RE.void_not_nullable : ∀ r : RE, r.void = true → r.nullable = false := by
  intro r
  induction r with
  | emptyset => intro _; rfl
  | eps => intro h; exact absurd h (by simp [RE.void])
  | chr c => intro _; rfl
  | anychar => intro _; rfl
  | alt r s ihr ihs =>
    intro h
    simp only [RE.void, Bool.and_eq_true] at h
    simp [RE.nullable, ihr h.1, ihs h.2]
  | cat r s ihr ihs =>
    intro h
    simp only [RE.void, Bool.or_eq_true] at h
    rcases h with h | h
    · simp [RE.nullable, ihr h]
    · simp [RE.nullable, ihs h]
  | star r _ => intro h; exact absurd h (by simp [RE.void])

theorem RE.void_deriv : ∀ (r : RE) (a : Char), r.void = true → (r.deriv a).void = true := by
  intro r
  induction r with
  | emptyset => intro a _; rfl
  | eps => intro a h; exact absurd h (by simp [RE.void])
  | chr c => intro a h; exact absurd h (by simp [RE.void])
  | anychar => intro a h; exact absurd h (by simp [RE.void])
  | alt r s ihr ihs =>
    intro a h
    simp only [RE.void, Bool.and_eq_true] at h
    simp [RE.deriv, RE.void, ihr a h.1, ihs a h.2]
  | cat r s ihr ihs =>
    intro a h
    simp only [RE.void, Bool.or_eq_true] at h
    rcases h with h | h
    · have hnn := RE.void_not_nullable r h
      simp [RE.deriv, hnn, RE.void, ihr a h]
    · by_cases hn : r.nullable = true
      · simp [RE.deriv, hn, RE.void, h, ihs a h]
      · simp only [Bool.not_eq_true] at hn
        simp [RE.deriv, hn, RE.void, h]
  | star r _ => intro a h; exact absurd h (by simp [RE.void])

theorem RE.derivs_append (r : RE) (w v : List Char) :
    r.derivs (w ++ v) = (r.derivs w).derivs v := by
  simp [RE.derivs, List.foldl_append]

theorem RE.void_derivs (r : RE) (w : List Char) (h : r.void = true) :
    (r.derivs w).void = true := by
  induction w generalizing r with
  | nil => exact h
  | cons a w ih =>
    have : r.derivs (a :: w) = (r.deriv a).derivs w := by
      simp [RE.derivs]
    rw [this]
    exact ih _ (RE.void_deriv r a h)

/-- Once the scanned text is hopeless, no extension fully matches. -/
theorem RE.full_extend_false (r : RE) (w ext : List Char)
    (h : (r.derivs w).void = true) : r.full (w ++ ext) = false := by
  unfold RE.full
  rw [RE.derivs_append]
  exact RE.void_not_nullable _ (RE.void_derivs _ ext h)

theorem matchKind_eq_full {r : RE} {w : List Char}
    (h : matchKind r w = .fullMatch) : r.full w = true := by
  unfold matchKind at h
  by_cases h1 : (r.derivs w).nullable = true
  · exact h1
  · simp only [Bool.not_eq_true] at h1
    by_cases h2 : (r.derivs w).void = true
    · simp [h1, h2] at h
    · simp [h1, h2] at h

theorem matchKind_eq_no {r : RE} {w : List Char}
    (h : matchKind r w = .noMatch) :
    (r.derivs w).nullable = false ∧ (r.derivs w).void = true := by
  unfold matchKind at h
  by_cases h1 : (r.derivs w).nullable = true
  · simp [h1] at h
  · simp only [Bool.not_eq_true] at h1
    by_cases h2 : (r.derivs w).void = true
    · exact ⟨h1, h2⟩
    · simp [h1, h2] at h

theorem matchKind_eq_partial {r : RE} {w : List Char}
    (h : matchKind r w = .partialMatch) :
    (r.derivs w).nullable = false ∧ (r.derivs w).void = false := by
  unfold matchKind at h
  by_cases h1 : (r.derivs w).nullable = true
  · simp [h1] at h
  · simp only [Bool.not_eq_true] at h1
    by_cases h2 : (r.derivs w).void = true
    · simp [h1, h2] at h
    · simp only [Bool.not_eq_true] at h2
      exact ⟨h1, h2⟩

/-! ## Lemmas: the `chars` scanning loop -/

theorem charsScan_spec (p : RE) (pred : Character → Bool) :
    ∀ (tail acc : List Character) (lg : Option Nat),
      (∀ v, lg = some v → v ≤ acc.length) →
      (∃ m, (charsScan p pred tail acc lg).1 = acc ++ tail.take m) ∧
      (∀ v, (charsScan p pred tail acc lg).2 = some v →
        v ≤ (charsScan p pred tail acc lg).1.length) ∧
      (((charsScan p pred tail acc lg).2 = lg ∧
          ∀ t, ¬ goodLen p pred acc tail t) ∨
        (∃ t, goodLen p pred acc tail t ∧
          (∀ u, goodLen p pred acc tail u → u ≤ t) ∧
          (charsScan p pred tail acc lg).2 = some (acc.length + t))) := by
  intro tail
  induction tail with
  | nil =>
    intro acc lg hlg
    refine ⟨⟨0, by simp [charsScan]⟩, ?_, ?_⟩
    · intro v hv
      simp only [charsScan] at hv ⊢
      exact hlg v hv
    · left
      refine ⟨rfl, ?_⟩
      rintro t ⟨ht1, ht2, _⟩
      simp [List.takeWhile] at ht2
      omega
  | cons c rest ih =>
    intro acc lg hlg
    by_cases hpred : pred c
    · have hrun : (c :: rest).takeWhile pred = c :: rest.takeWhile pred :=
        List.takeWhile_cons_of_pos hpred
      rcases hk : matchKind p ((acc ++ [c]).map (·.char)) with _ | _ | _
      -- fullMatch
      · have hscan : charsScan p pred (c :: rest) acc lg =
            charsScan p pred rest (acc ++ [c]) (some (acc ++ [c]).length) := by
          have hk2 := hk
          simp only [List.map_append, List.map_cons, List.map_nil] at hk2
          simp [charsScan, hpred, hk2]
        have hfull : p.full ((acc ++ [c]).map (·.char)) = true :=
          matchKind_eq_full hk
        have hlg2 : ∀ v, some (acc ++ [c]).length = some v →
            v ≤ (acc ++ [c]).length := by
          intro v hv
          injection hv with hv
          omega
        obtain ⟨⟨m, hm⟩, hbound, hdis⟩ := ih (acc ++ [c]) (some (acc ++ [c]).length) hlg2
        rw [hscan]
        refine ⟨⟨m + 1, ?_⟩, hbound, ?_⟩
        · rw [hm]; simp
        · have hshift : ∀ u, 2 ≤ u →
              (goodLen p pred acc (c :: rest) u ↔
               goodLen p pred (acc ++ [c]) rest (u - 1)) := by
            intro u hu
            unfold goodLen
            obtain ⟨u', rfl⟩ : ∃ u', u = u' + 1 := ⟨u - 1, by omega⟩
            rw [hrun]
            simp only [List.take_succ_cons, List.length_cons,
              Nat.add_sub_cancel]
            constructor
            · rintro ⟨_, h2, h3⟩
              refine ⟨by omega, by omega, ?_⟩
              simpa using h3
            · rintro ⟨h1, h2, h3⟩
              refine ⟨by omega, by omega, ?_⟩
              simpa using h3
          have hgood1 : goodLen p pred acc (c :: rest) 1 := by
            refine ⟨le_refl 1, ?_, ?_⟩
            · rw [hrun]; simp
            · simpa using hfull
          rcases hdis with ⟨heq, hnone⟩ | ⟨t, hgood, hmax, hval⟩
          · right
            refine ⟨1, hgood1, ?_, ?_⟩
            · intro u hu
              by_cases hu2 : 2 ≤ u
              · exact absurd ((hshift u hu2).mp hu) (hnone (u - 1))
              · have := hu.1; omega
            · rw [heq]
              simp
          · right
            refine ⟨t + 1, ?_, ?_, ?_⟩
            · rw [hshift (t + 1) (by have := hgood.1; omega)]
              simpa using hgood
            · intro u hu
              by_cases hu2 : 2 ≤ u
              · have := hmax (u - 1) ((hshift u hu2).mp hu)
                omega
              · have := hu.1; omega
            · rw [hval]
              simp
              omega
      -- partialMatch
      · have hscan : charsScan p pred (c :: rest) acc lg =
            charsScan p pred rest (acc ++ [c]) lg := by
          have hk2 := hk
          simp only [List.map_append, List.map_cons, List.map_nil] at hk2
          simp [charsScan, hpred, hk2]
        have hpart := matchKind_eq_partial hk
        have hnotfull : p.full ((acc ++ [c]).map (·.char)) = false := by
          unfold RE.full
          exact hpart.1
        have hlg2 : ∀ v, lg = some v → v ≤ (acc ++ [c]).length := by
          intro v hv
          have := hlg v hv
          simp only [List.length_append, List.length_cons, List.length_nil]
          omega
        obtain ⟨⟨m, hm⟩, hbound, hdis⟩ := ih (acc ++ [c]) lg hlg2
        rw [hscan]
        refine ⟨⟨m + 1, ?_⟩, hbound, ?_⟩
        · rw [hm]; simp
        · have hshift : ∀ u, 2 ≤ u →
              (goodLen p pred acc (c :: rest) u ↔
               goodLen p pred (acc ++ [c]) rest (u - 1)) := by
            intro u hu
            unfold goodLen
            obtain ⟨u', rfl⟩ : ∃ u', u = u' + 1 := ⟨u - 1, by omega⟩
            rw [hrun]
            simp only [List.take_succ_cons, List.length_cons,
              Nat.add_sub_cancel]
            constructor
            · rintro ⟨_, h2, h3⟩
              refine ⟨by omega, by omega, ?_⟩
              simpa using h3
            · rintro ⟨h1, h2, h3⟩
              refine ⟨by omega, by omega, ?_⟩
              simpa using h3
          have hno1 : ¬ goodLen p pred acc (c :: rest) 1 := by
            rintro ⟨_, _, h3⟩
            simp only [List.take_succ_cons, List.take_zero] at h3
            rw [hnotfull] at h3
            · exact absurd h3 (by simp)
          rcases hdis with ⟨heq, hnone⟩ | ⟨t, hgood, hmax, hval⟩
          · left
            refine ⟨heq, ?_⟩
            intro u hu
            by_cases hu2 : 2 ≤ u
            · exact hnone (u - 1) ((hshift u hu2).mp hu)
            · have h1 := hu.1
              have : u = 1 := by omega
              subst this
              exact hno1 hu
          · right
            refine ⟨t + 1, ?_, ?_, ?_⟩
            · rw [hshift (t + 1) (by have := hgood.1; omega)]
              simpa using hgood
            · intro u hu
              by_cases hu2 : 2 ≤ u
              · have := hmax (u - 1) ((hshift u hu2).mp hu)
                omega
              · have := hu.1; omega
            · rw [hval]
              simp
              omega
      -- noMatch
      · have hscan : charsScan p pred (c :: rest) acc lg = (acc ++ [c], lg) := by
          have hk2 := hk
          simp only [List.map_append, List.map_cons, List.map_nil] at hk2
          simp [charsScan, hpred, hk2]
        have hno := matchKind_eq_no hk
        rw [hscan]
        refine ⟨⟨1, by simp⟩, ?_, ?_⟩
        · intro v hv
          have := hlg v hv
          simp only [List.length_append, List.length_cons, List.length_nil]
          omega
        · left
          refine ⟨rfl, ?_⟩
          rintro t ⟨ht1, _, ht3⟩
          obtain ⟨t', rfl⟩ : ∃ t', t = t' + 1 := ⟨t - 1, by omega⟩
          rw [List.take_succ_cons] at ht3
          have hsplit : acc ++ c :: rest.take t' = (acc ++ [c]) ++ rest.take t' := by
            simp
          rw [hsplit, List.map_append] at ht3
          rw [RE.full_extend_false p _ _ hno.2] at ht3
          exact absurd ht3 (by simp)
    · have hscan : charsScan p pred (c :: rest) acc lg = (acc, lg) := by
        simp [charsScan, hpred]
      have hrun : (c :: rest).takeWhile pred = [] :=
        List.takeWhile_cons_of_neg (by simpa using hpred)
      rw [hscan]
      refine ⟨⟨0, by simp⟩, ?_, ?_⟩
      · intro v hv
        exact hlg v hv
      · left
        refine ⟨rfl, ?_⟩
        rintro t ⟨ht1, ht2, _⟩
        rw [hrun] at ht2
        simp at ht2
        omega

theorem takeWhile_take {α : Type} (pr : α → Bool) :
    ∀ (l : List α) (t : Nat), t ≤ (l.takeWhile pr).length →
      (l.takeWhile pr).take t = l.take t := by
  intro l
  induction l with
  | nil => intro t _; simp
  | cons c rest ih =>
    intro t ht
    by_cases hc : pr c
    · rw [List.takeWhile_cons_of_pos hc] at ht ⊢
      cases t with
      | zero => simp
      | succ k =>
        simp only [List.take_succ_cons]
        rw [ih k (by simpa using ht)]
    · rw [List.takeWhile_cons_of_neg (by simpa using hc)] at ht
      have : t = 0 := by simpa using ht
      subst this
      simp

/-! ## Claim theorems: normalizer, script detector, entry segmenter -/

/-- C6: for every Character whose codepoint is whitespace, `normalize_char`
returns exactly one ASCII space, regardless of the character's font, style,
or any script option in effect — all other normalization rules are
bypassed. -/
theorem c6_whitespace_single_space (script : Option Script) (c : Character)
    (h : pyIsSpace c.char = true) :
    normalize_char script c = .ok " " := by
  simp [normalize_char, h]

/-- Witness for C6 at a concrete whitespace character with a special font. -/
theorem c6_witness :
    normalize_char (some .Latn) ⟨' ', ⟨some "Lingua", true, true, false, false⟩⟩ =
      .ok " " :=
  c6_whitespace_single_space (some .Latn)
    ⟨' ', ⟨some "Lingua", true, true, false, false⟩⟩ (by decide)

/-- C4: for every non-whitespace Character whose font has a registered
glyph-substitution table, if the codepoint is in the table `normalize_char`
returns the substituted text, and if it is absent `normalize_char` fails
with an unsupported-glyph error — it never silently returns the raw
codepoint. -/
theorem c4_glyph_failure_propagation (script : Option Script) (c : Character)
    (f : String) (table : List (Char × String))
    (hfont : c.format.font = some f)
    (htab : FONT_CONV.lookup f = some table)
    (hws : pyIsSpace c.char = false) :
    (∀ s, table.lookup c.char = some s → normalize_char script c = .ok s) ∧
    (table.lookup c.char = none →
      normalize_char script c = .error (.unsupportedGlyph c.char f)) := by
  constructor
  · intro s hs
    simp [normalize_char, hws, hfont, htab, hs]
  · intro hn
    simp [normalize_char, hws, hfont, htab, hn]

/-- Witness for C4: an unmapped codepoint in the `Lingua` font fails. -/
theorem c4_witness :
    normalize_char none ⟨'z', ⟨some "Lingua", false, false, false, false⟩⟩ =
      .error (.unsupportedGlyph 'z' "Lingua") :=
  (c4_glyph_failure_propagation none
    ⟨'z', ⟨some "Lingua", false, false, false, false⟩⟩ "Lingua" _
    rfl rfl (by decide)).2 (by decide)

/-- C5: `detect_script` excludes every character whose font has a
substitution table or whose codepoint is in the fixed ignore set, classifies
the rest by whether their Unicode name contains `LATIN` or `CYRILLIC`, and
returns the Cyrillic tag iff the Cyrillic count strictly exceeds the Latin
count and is at least 20% of all tallied characters (`5 * cyr ≥ total`);
otherwise the Latin tag. -/
theorem c5_detect_script_tally (uname : Char → String)
    (cs : List Character) :
    detect_script uname cs = .Cyrl ↔
      (latinCount uname cs < cyrCount uname cs ∧
       (talliedChars cs).length ≤ 5 * cyrCount uname cs) := by
  unfold detect_script
  rw [detectLoop_counts]
  simp only [Nat.zero_add]
  by_cases h1 : latinCount uname cs < cyrCount uname cs
  · by_cases h2 : (talliedChars cs).length ≤ 5 * cyrCount uname cs
    · simp [h1, h2]
    · simp [h1, h2]
  · simp [h1]

/-- C3: `extract_entries` coincides with the spec-side fold: short
paragraphs flush the buffer and are dropped, bold-headed non-continuation
paragraphs flush and start a new buffer, every other qualifying paragraph is
appended preceded by a synthetic default-style newline, and a final
non-empty buffer is yielded. -/
theorem c3_extract_entries_spec (pars : List (List Character)) :
    extract_entries pars = segmentSpec pars := by
  have h := extractGo_foldl pars [] []
  simpa [extract_entries, segmentSpec] using h

/-- C10: a paragraph of 3+ characters that is not an entry start (first
character not bold, or a continuation glyph), arriving while no entry
buffer is open, starts a buffer beginning with the synthetic newline; in
particular a document consisting of that paragraph alone yields exactly one
entry that begins with the newline Character. -/
theorem c10_leading_continuation (p : List Character)
    (ps : List (List Character)) (h3 : 3 ≤ p.length)
    (hns : isEntryStart p = false) :
    extract_entries (p :: ps) = extractGo ps (newlineChar :: p) ∧
    extract_entries [p] = [newlineChar :: p] := by
  have hlen : ¬p.length < 3 := by omega
  constructor
  · simp [extract_entries, extractGo, hlen, hns]
  · simp [extract_entries, extractGo, hlen, hns]

/-- Witness for C10 at a concrete three-character non-bold paragraph. -/
theorem c10_witness :
    extract_entries
      [[⟨'a', defaultFormat⟩, ⟨'b', defaultFormat⟩, ⟨'c', defaultFormat⟩]] =
      [[newlineChar, ⟨'a', defaultFormat⟩, ⟨'b', defaultFormat⟩,
        ⟨'c', defaultFormat⟩]] :=
  (c10_leading_continuation
    [⟨'a', defaultFormat⟩, ⟨'b', defaultFormat⟩, ⟨'c', defaultFormat⟩] []
    (by decide) (by decide)).2

/-! ## Claim theorems: the `chars` styled-run parser -/

/-- C1 (amended): the styled-run parser built by `chars` either fails at the
start index — which happens exactly when no *nonempty* prefix of the
style-eligible run fully matches the pattern — or succeeds consuming
exactly `P` characters, where `P ≥ 1` is the greatest prefix length within
the maximal style-eligible run at which the pattern fully (not merely
partially) matched, and its value is exactly that `P`-character slice of
the stream.  (The original claim, quantifying over all prefixes including
the empty one, fails for patterns that match the empty string; see the
counterexample.) -/
theorem c1_longest_full_match (p : RE) (boldOpt italicOpt : Option Bool)
    (stream : List Character) (index : Nat) :
    (chars p boldOpt italicOpt stream index = .failure index p ∧
      ∀ t, 1 ≤ t →
        t ≤ ((stream.drop index).takeWhile (format_pred boldOpt italicOpt)).length →
        p.full ((((stream.drop index).takeWhile
            (format_pred boldOpt italicOpt)).take t).map (·.char)) = false) ∨
    (∃ P, 1 ≤ P ∧
      P ≤ ((stream.drop index).takeWhile (format_pred boldOpt italicOpt)).length ∧
      p.full ((((stream.drop index).takeWhile
          (format_pred boldOpt italicOpt)).take P).map (·.char)) = true ∧
      (∀ t, P < t →
        t ≤ ((stream.drop index).takeWhile (format_pred boldOpt italicOpt)).length →
        p.full ((((stream.drop index).takeWhile
            (format_pred boldOpt italicOpt)).take t).map (·.char)) = false) ∧
      chars p boldOpt italicOpt stream index =
        .success (index + P) (pySlice stream index (index + P))) := by
  have hspec := charsScan_spec p (format_pred boldOpt italicOpt)
    (stream.drop index) [] none (by intro v hv; cases hv)
  rcases hsc : charsScan p (format_pred boldOpt italicOpt)
      (stream.drop index) [] none with ⟨acc, lgout⟩
  rw [hsc] at hspec
  obtain ⟨⟨m, hm⟩, hbound, hdis⟩ := hspec
  simp only at hm hbound hdis
  simp only [List.nil_append] at hm
  rcases hdis with ⟨heq, hnone⟩ | ⟨t, hgood, hmax, hval⟩
  · left
    constructor
    · simp [chars, charsP, hsc, heq]
    · intro t ht1 ht2
      by_cases hf : p.full ((((stream.drop index).takeWhile
          (format_pred boldOpt italicOpt)).take t).map (·.char)) = true
      · exfalso
        apply hnone t
        refine ⟨ht1, ht2, ?_⟩
        rw [takeWhile_take _ _ t ht2] at hf
        simpa using hf
      · simpa using hf
  · right
    refine ⟨t, hgood.1, hgood.2.1, ?_, ?_, ?_⟩
    · have hf := hgood.2.2
      simp only [List.nil_append] at hf
      rw [takeWhile_take _ _ t hgood.2.1]
      exact hf
    · intro u hu1 hu2
      by_cases hf : p.full ((((stream.drop index).takeWhile
          (format_pred boldOpt italicOpt)).take u).map (·.char)) = true
      · exfalso
        have : u ≤ t := by
          apply hmax u
          refine ⟨by omega, hu2, ?_⟩
          rw [takeWhile_take _ _ u hu2] at hf
          simpa using hf
        omega
      · simpa using hf
    · have hlen : t ≤ acc.length := by
        have h := hbound _ hval
        simpa using h
      have hml : acc.length ≤ m := by
        rw [hm]
        exact List.length_take_le m _
      have hacc : acc.take t = (stream.drop index).take t := by
        rw [hm, List.take_take]
        congr 1
        omega
      simp only [chars, charsP, hsc, hval, List.length_nil, Nat.zero_add]
      rw [hacc]
      unfold pySlice
      have hsub : index + t - index = t := by omega
      rw [hsub]

/-- C1 counterexample to the claim as stated: with the pattern `a*` (which
fully matches the empty prefix) on the stream `"b"`, the style-eligible run
is nonempty and its empty prefix fully matches the pattern, yet the parser
fails at the start index — so failure does not happen only "when no prefix
of the style-eligible run fully matches the pattern". -/
theorem c1_counterexample :
    chars (.star (.chr 'a')) none none [⟨'b', defaultFormat⟩] 0 =
      .failure 0 (.star (.chr 'a')) ∧
    RE.full (.star (.chr 'a'))
      (((((([⟨'b', defaultFormat⟩] : List Character).drop 0).takeWhile
        (format_pred none none)).take 0).map (·.char))) = true ∧
    0 < ((([⟨'b', defaultFormat⟩] : List Character).drop 0).takeWhile
        (format_pred none none)).length := by
  refine ⟨by decide, by decide, by decide⟩

/-- C9: whenever the `chars` parser succeeds it consumes at least one
character (`next_index ≥ start_index + 1`), even for patterns that match
the empty string; and on empty remaining input it always fails at the start
index. -/
theorem c9_consumes_at_least_one :
    (∀ (p : RE) (boldOpt italicOpt : Option Bool) (stream : List Character)
       (index ni : Nat) (v : List Character),
       chars p boldOpt italicOpt stream index = .success ni v →
       index + 1 ≤ ni) ∧
    (∀ (p : RE) (boldOpt italicOpt : Option Bool) (stream : List Character)
       (index : Nat), stream.length ≤ index →
       chars p boldOpt italicOpt stream index = .failure index p) := by
  constructor
  · intro p boldOpt italicOpt stream index ni v hsucc
    have hspec := charsScan_spec p (format_pred boldOpt italicOpt)
      (stream.drop index) [] none (by intro w hw; cases hw)
    rcases hsc : charsScan p (format_pred boldOpt italicOpt)
        (stream.drop index) [] none with ⟨acc, lgout⟩
    rw [hsc] at hspec
    obtain ⟨_, _, hdis⟩ := hspec
    rcases hdis with ⟨heq, _⟩ | ⟨t, hgood, _, hval⟩
    · simp only at heq
      simp [chars, charsP, hsc, heq] at hsucc
    · simp only at hval
      simp only [chars, charsP, hsc, hval] at hsucc
      have h1 := hgood.1
      injection hsucc with h2 _
      omega
  · intro p boldOpt italicOpt stream index hlen
    have hdrop : stream.drop index = [] := List.drop_eq_nil_of_le hlen
    simp [chars, charsP, hdrop, charsScan]

/-- Witness for C9 at concrete inputs: a one-character stream is consumed
(next index 1 ≥ 0 + 1), and parsing past the end of any stream fails. -/
theorem c9_witness :
    (0 + 1 ≤ 1) ∧
    chars .anychar none none ([] : List Character) 0 = .failure 0 .anychar :=
  ⟨c9_consumes_at_least_one.1 .anychar none none [⟨'b', defaultFormat⟩] 0 1
      [⟨'b', defaultFormat⟩] (by decide),
   c9_consumes_at_least_one.2 .anychar none none [] 0 (by decide)⟩

/-! ## Lemmas: the `Except` monad and trailing-whitespace stripping -/

theorem exceptPure_eq {ε α : Type} (a : α) : (pure a : Except ε α) = Except.ok a := rfl

theorem exceptBind_ok {ε α β : Type} (a : α) (f : α → Except ε β) :
    (Except.ok a : Except ε α) >>= f = f a := rfl

theorem exceptBind_err {ε α β : Type} (e : ε) (f : α → Except ε β) :
    (Except.error e : Except ε α) >>= f = Except.error e := rfl

theorem dropWhile_length_le_self {α : Type} (p : α → Bool) :
    ∀ l : List α, (l.dropWhile p).length ≤ l.length := by
  intro l
  induction l with
  | nil => simp
  | cons x l ih =>
    by_cases hx : p x
    · rw [List.dropWhile_cons_of_pos hx]
      simp only [List.length_cons]
      omega
    · rw [List.dropWhile_cons_of_neg (by simpa using hx)]

theorem dropWhile_eq_self_of_length {α : Type} (p : α → Bool) :
    ∀ xs : List α, (xs.dropWhile p).length = xs.length → xs.dropWhile p = xs := by
  intro xs
  cases xs with
  | nil => intro _; rfl
  | cons x l =>
    intro h
    by_cases hx : p x
    · rw [List.dropWhile_cons_of_pos hx] at h ⊢
      have hle := dropWhile_length_le_self p l
      simp only [List.length_cons] at h
      omega
    · rw [List.dropWhile_cons_of_neg (by simpa using hx)]

theorem rstripStr_eq_of_length (t : String)
    (h : (rstripStr t).length = t.length) : rstripStr t = t := by
  unfold rstripStr rstripList at h ⊢
  have hl : ((t.data.reverse.dropWhile pyIsSpace).reverse).length = t.data.length := h
  rw [List.length_reverse] at hl
  have hl2 : (t.data.reverse.dropWhile pyIsSpace).length = t.data.reverse.length := by
    rw [List.length_reverse]
    exact hl
  have hdw := dropWhile_eq_self_of_length pyIsSpace t.data.reverse hl2
  rw [hdw, List.reverse_reverse]

/-! ## Lemmas: markup builder with no tracked attributes -/

theorem buildLoop_no_attrs (nfc : String → String) (script : Option Script)
    (chars : List Character) :
    ∀ (rest : List Character) (j i0 : Nat) (r0 : List MarkupNode)
      (f : Option (List Bool)),
      ∃ f', buildLoop nfc script [] chars rest j ⟨i0, r0, [], f⟩ =
        .ok ⟨i0, r0, [], f'⟩ := by
  intro rest
  induction rest with
  | nil => intro j i0 r0 f; exact ⟨f, rfl⟩
  | cons c rest ih =>
    intro j i0 r0 f
    by_cases hws : pyIsSpace c.char = true
    · have hstep : processChar nfc script [] chars c j ⟨i0, r0, [], f⟩ =
          .ok ⟨i0, r0, [], f⟩ := by
        unfold processChar
        rw [if_pos hws]
        rfl
      obtain ⟨f', hf'⟩ := ih (j + 1) i0 r0 f
      refine ⟨f', ?_⟩
      simp only [buildLoop, hstep, exceptBind_ok]
      exact hf'
    · have hstep : processChar nfc script [] chars c j ⟨i0, r0, [], f⟩ =
          .ok ⟨i0, r0, [], some []⟩ := by
        rcases f with _ | (_ | ⟨b, l⟩) <;>
          simp [processChar, hws, fmtFalsy, popCountG, openLoop, exceptPure_eq,
            exceptBind_ok]
      obtain ⟨f', hf'⟩ := ih (j + 1) i0 r0 (some [])
      refine ⟨f', ?_⟩
      simp only [buildLoop, hstep, exceptBind_ok]
      exact hf'

/-- C7 (amended): for every *nonempty* uniformly styled Character sequence
whose normalization succeeds, the markup builder with an empty
tracked-attribute set returns a single string leaf whose text equals the
NFC-normalized concatenation of the input *with trailing whitespace
removed* (the final `push_node` rstrips the flushed segment; the unamended
equality fails on inputs with trailing whitespace, see the
counterexample). -/
theorem c7_uniform_single_leaf (nfc : String → String) (script : Option Script)
    (chars : List Character) (text : String)
    (huni : ∀ c ∈ chars, ∀ d ∈ chars, c.format = d.format)
    (hne : chars ≠ [])
    (htext : plainTextNoNorm script chars = .ok text) :
    formatted_text nfc script [] chars = .ok ⟨[.text (nfc (rstripStr text))]⟩ := by
  obtain ⟨f', hloop⟩ := buildLoop_no_attrs nfc script chars chars 0 0 [] none
  have hlen : 0 < chars.length := List.length_pos.mpr hne
  unfold formatted_text
  rw [hloop]
  rw [exceptBind_ok]
  simp only
  rw [if_pos hlen]
  have hslice : pySlice chars 0 chars.length = chars := by
    simp [pySlice]
  unfold pushNode
  rw [if_neg (by simp only; omega), hslice, htext, exceptBind_ok]
  simp only
  by_cases hstrip : (rstripStr text).length = text.length
  · rw [if_neg (by simp [hstrip])]
    rw [rstripStr_eq_of_length text hstrip]
    rfl
  · rw [if_pos (by simp [hstrip])]
    rfl

/-- C7 counterexample to the claim as stated: a single whitespace character
is a uniformly styled sequence, but the builder returns a single leaf with
*empty* text while the normalized concatenation of the input is one space —
the final flush strips trailing whitespace, so the claimed equality between
the leaf text and the normalized concatenation fails. -/
theorem c7_counterexample :
    formatted_text id none [] [⟨' ', defaultFormat⟩] = .ok ⟨[.text ""]⟩ ∧
    plain_text id none [⟨' ', defaultFormat⟩] = .ok " " ∧
    ("" : String) ≠ " " :=
  ⟨rfl, rfl, by decide⟩

/-- Witness for C7 at a concrete one-character input. -/
theorem c7_witness :
    formatted_text id none [] [⟨'a', defaultFormat⟩] =
      .ok ⟨[.text (id (rstripStr "a"))]⟩ :=
  c7_uniform_single_leaf id none [⟨'a', defaultFormat⟩] "a"
    (by decide) (by decide) rfl

/-! ## Lemmas: abstracting the builder state to its skeleton -/

theorem skelListOf_append : ∀ a b : List MarkupNode,
    skelListOf (a ++ b) = skelListOf a ++ skelListOf b := by
  intro a b
  induction a with
  | nil => simp [skelListOf]
  | cons n ns ih =>
    simp only [List.cons_append, skelListOf]
    cases skelOf n with
    | none => simpa using ih
    | some s => simp [ih]

theorem absState_appendTop_text (s : String) (st : BState) :
    absState (appendTop (.text s) st) = absState st := by
  unfold appendTop absState
  cases st.levels with
  | nil =>
    simp [skelListOf_append, skelListOf, skelOf]
  | cons l rest =>
    rcases l with ⟨a, cs⟩
    simp [skelListOf_append, skelListOf, skelOf]

theorem absState_appendTop_node (t : Attr) (cs : List MarkupNode) (st : BState) :
    absState (appendTop (.node t cs) st) =
      sAppendTop (.mk t (skelListOf cs)) (absState st) := by
  unfold appendTop absState sAppendTop
  cases st.levels with
  | nil =>
    simp [skelListOf_append, skelListOf, skelOf]
  | cons l rest =>
    rcases l with ⟨a, ds⟩
    simp [skelListOf_append, skelListOf, skelOf]

theorem absState_popLevel (st : BState) :
    absState (popLevel st) = sPopLevel (absState st) := by
  unfold popLevel sPopLevel
  cases hl : st.levels with
  | nil =>
    simp [absState, hl]
  | cons l rest =>
    rcases l with ⟨a, cs⟩
    have h1 : absState { st with levels := rest } =
        { absState st with levels := rest.map (fun l => (l.1, skelListOf l.2)) } := by
      simp [absState]
    rw [absState_appendTop_node]
    rw [h1]
    simp [absState, hl, sAppendTop]

theorem absState_popN : ∀ (n : Nat) (st : BState),
    absState (popN n st) = sPopN n (absState st) := by
  intro n
  induction n with
  | zero => intro st; rfl
  | succ k ih =>
    intro st
    simp only [popN, sPopN]
    rw [ih, absState_popLevel]

theorem popLevel_i (st : BState) : (popLevel st).i = st.i := by
  unfold popLevel
  cases st.levels with
  | nil => rfl
  | cons l rest =>
    rcases l with ⟨a, cs⟩
    unfold appendTop
    cases rest <;> rfl

theorem popN_i : ∀ (n : Nat) (st : BState), (popN n st).i = st.i := by
  intro n
  induction n with
  | zero => intro st; rfl
  | succ k ih =>
    intro st
    simp only [popN]
    rw [ih, popLevel_i]

theorem pushNode_abs {nfc : String → String} {script : Option Script}
    {chars : List Character} {j : Nat} {gd : Bool} {st st' : BState}
    (h : pushNode nfc script chars j gd st = .ok st') :
    absState st' = absState st := by
  unfold pushNode at h
  by_cases hj : j = st.i
  · rw [if_pos hj] at h
    injection h with h
    rw [← h]
  · rw [if_neg hj] at h
    cases htext : plainTextNoNorm script (pySlice chars st.i j) with
    | error e =>
      rw [htext, exceptBind_err] at h
      cases h
    | ok text =>
      rw [htext, exceptBind_ok] at h
      by_cases hs : (gd && (rstripStr text).length != text.length) = true
      · rw [if_pos hs] at h
        injection h with h
        rw [← h]
        exact absState_appendTop_text _ _
      · rw [if_neg hs] at h
        injection h with h
        rw [← h]
        exact absState_appendTop_text _ _

theorem pushNode_i_le {nfc : String → String} {script : Option Script}
    {chars : List Character} {j : Nat} {gd : Bool} {st st' : BState}
    (h : pushNode nfc script chars j gd st = .ok st') (hij : st.i ≤ j) :
    st'.i ≤ j := by
  unfold pushNode at h
  by_cases hj : j = st.i
  · rw [if_pos hj] at h
    injection h with h
    rw [← h]
    exact hij
  · rw [if_neg hj] at h
    cases htext : plainTextNoNorm script (pySlice chars st.i j) with
    | error e =>
      rw [htext, exceptBind_err] at h
      cases h
    | ok text =>
      rw [htext, exceptBind_ok] at h
      by_cases hs : (gd && (rstripStr text).length != text.length) = true
      · rw [if_pos hs] at h
        injection h with h
        rw [← h]
        unfold appendTop
        cases st.levels <;> simp <;> omega
      · rw [if_neg hs] at h
        injection h with h
        rw [← h]
        unfold appendTop
        cases st.levels <;> simp

theorem popCountG_map {β γ : Type} (f : Format) (g : β → γ) :
    ∀ levels : List (Attr × β),
      popCountG f (levels.map (fun l => (l.1, g l.2))) = popCountG f levels := by
  intro levels
  induction levels with
  | nil => rfl
  | cons l rest ih =>
    rcases l with ⟨a, b⟩
    simp [popCountG, ih]

theorem any_fst_map {β γ : Type} (g : β → γ) (a : Attr) :
    ∀ l : List (Attr × β),
      ((l.map (fun x => (x.1, g x.2))).any fun x => decide (x.1 = a)) =
        l.any fun x => decide (x.1 = a) := by
  intro l
  induction l with
  | nil => rfl
  | cons x xs ih =>
    rcases x with ⟨t, b⟩
    simp [ih]

theorem levels_any_abs (st : BState) (a : Attr) :
    (absState st).levels.any (fun l => decide (l.1 = a)) =
      st.levels.any (fun l => decide (l.1 = a)) := by
  unfold absState
  exact any_fst_map _ a st.levels

theorem openLoop_abs {nfc : String → String} {script : Option Script}
    {chars : List Character} {j : Nat} :
    ∀ (zs : List (Attr × Bool)) (st st' : BState),
      openLoop nfc script chars j zs st = .ok st' →
      absState st' = sOpenLoop zs (absState st) := by
  intro zs
  induction zs with
  | nil =>
    intro st st' h
    injection h with h
    rw [← h]
    rfl
  | cons z rest ih =>
    intro st st' h
    rcases z with ⟨a, v⟩
    unfold openLoop at h
    unfold sOpenLoop
    have hceq : (v && !(absState st).levels.any (fun l => decide (l.1 = a))) =
        (v && !st.levels.any (fun l => decide (l.1 = a))) := by
      rw [levels_any_abs]
    by_cases hc : (v && !st.levels.any (fun l => decide (l.1 = a))) = true
    · rw [if_pos hc] at h
      rw [if_pos (by rw [hceq]; exact hc)]
      cases hpush : pushNode nfc script chars j false st with
      | error e =>
        rw [hpush, exceptBind_err] at h
        cases h
      | ok st1 =>
        rw [hpush, exceptBind_ok] at h
        have := ih _ _ h
        rw [this]
        have habs : absState { st1 with levels := (a, []) :: st1.levels } =
            { absState st with levels :=
                (a, []) :: (absState st).levels } := by
          rw [← pushNode_abs hpush]
          simp [absState, skelListOf]
        rw [habs]
    · rw [if_neg hc] at h
      rw [if_neg (by rw [hceq]; exact hc)]
      exact ih _ _ h

theorem openLoop_i_le {nfc : String → String} {script : Option Script}
    {chars : List Character} {j : Nat} :
    ∀ (zs : List (Attr × Bool)) (st st' : BState),
      openLoop nfc script chars j zs st = .ok st' → st.i ≤ j → st'.i ≤ j := by
  intro zs
  induction zs with
  | nil =>
    intro st st' h hij
    injection h with h
    rw [← h]
    exact hij
  | cons z rest ih =>
    intro st st' h hij
    rcases z with ⟨a, v⟩
    unfold openLoop at h
    by_cases hc : (v && !st.levels.any (fun l => decide (l.1 = a))) = true
    · rw [if_pos hc] at h
      cases hpush : pushNode nfc script chars j false st with
      | error e =>
        rw [hpush, exceptBind_err] at h
        cases h
      | ok st1 =>
        rw [hpush, exceptBind_ok] at h
        have hi1 : st1.i ≤ j := pushNode_i_le hpush hij
        exact ih _ _ h hi1
    · rw [if_neg hc] at h
      exact ih _ _ h hij

theorem collapseN_abs {nfc : String → String} {script : Option Script}
    {chars : List Character} {j n : Nat} {st st' : BState}
    (h : collapseN nfc script chars j n st = .ok st') :
    absState st' = sPopN n (absState st) := by
  unfold collapseN at h
  cases hpush : pushNode nfc script chars j true st with
  | error e =>
    rw [hpush, exceptBind_err] at h
    cases h
  | ok st1 =>
    rw [hpush, exceptBind_ok] at h
    injection h with h
    rw [← h, absState_popN, pushNode_abs hpush]

theorem collapseN_i_le {nfc : String → String} {script : Option Script}
    {chars : List Character} {j n : Nat} {st st' : BState}
    (h : collapseN nfc script chars j n st = .ok st') (hij : st.i ≤ j) :
    st'.i ≤ j := by
  unfold collapseN at h
  cases hpush : pushNode nfc script chars j true st with
  | error e =>
    rw [hpush, exceptBind_err] at h
    cases h
  | ok st1 =>
    rw [hpush, exceptBind_ok] at h
    injection h with h
    rw [← h, popN_i]
    exact pushNode_i_le hpush hij

theorem processChar_ws {nfc : String → String} {script : Option Script}
    {attrs : List Attr} {chars : List Character} {c : Character} {j : Nat}
    {st : BState} (hws : pyIsSpace c.char = true) :
    processChar nfc script attrs chars c j st = .ok st := by
  unfold processChar
  rw [if_pos hws]
  rfl

theorem skelStep_ws {attrs : List Attr} {c : Character} {st : SkelSt}
    (hws : pyIsSpace c.char = true) : skelStep attrs c st = st := by
  unfold skelStep
  rw [if_pos hws]

theorem processChar_abs {nfc : String → String} {script : Option Script}
    {attrs : List Attr} {chars : List Character} {c : Character} {j : Nat}
    {st st' : BState}
    (h : processChar nfc script attrs chars c j st = .ok st') :
    absState st' = skelStep attrs c (absState st) := by
  by_cases hws : pyIsSpace c.char = true
  · rw [processChar_ws hws] at h
    injection h with h
    rw [← h, skelStep_ws hws]
  · unfold processChar at h
    rw [if_neg hws] at h
    unfold skelStep
    rw [if_neg hws]
    simp only at h ⊢
    have habs_fmt : (absState st).fmt = st.fmt := rfl
    have hpc : popCountG c.format (absState st).levels =
        popCountG c.format st.levels := by
      unfold absState
      exact popCountG_map c.format _ st.levels
    rw [habs_fmt, hpc]
    by_cases hc : (fmtFalsy st.fmt ||
        decide (st.fmt ≠ some (attrs.map (getattrB c.format)))) = true
    · rw [if_pos hc] at h
      rw [if_pos hc]
      by_cases hn : popCountG c.format st.levels ≠ 0
      · rw [if_pos hn] at h
        rw [if_pos hn]
        cases hcol : collapseN nfc script chars j
            (popCountG c.format st.levels) st with
        | error e =>
          rw [hcol, exceptBind_err] at h
          cases h
        | ok st1 =>
          rw [hcol, exceptBind_ok] at h
          cases hopen : openLoop nfc script chars j
              (attrs.zip (attrs.map (getattrB c.format))) st1 with
          | error e =>
            rw [hopen, exceptBind_err] at h
            cases h
          | ok st2 =>
            rw [hopen, exceptBind_ok] at h
            injection h with h
            have hfin : absState { st2 with
                fmt := some (attrs.map (getattrB c.format)) } =
                { absState st2 with
                  fmt := some (attrs.map (getattrB c.format)) } := rfl
            rw [← h, hfin, openLoop_abs _ _ _ hopen, collapseN_abs hcol]
      · rw [if_neg hn] at h
        rw [if_neg hn]
        rw [exceptPure_eq, exceptBind_ok] at h
        cases hopen : openLoop nfc script chars j
            (attrs.zip (attrs.map (getattrB c.format))) st with
        | error e =>
          rw [hopen, exceptBind_err] at h
          cases h
        | ok st2 =>
          rw [hopen, exceptBind_ok] at h
          injection h with h
          have hfin : absState { st2 with
              fmt := some (attrs.map (getattrB c.format)) } =
              { absState st2 with
                fmt := some (attrs.map (getattrB c.format)) } := rfl
          rw [← h, hfin, openLoop_abs _ _ _ hopen]
    · rw [if_neg hc] at h
      rw [if_neg hc]
      injection h with h
      rw [← h]

theorem processChar_i_le {nfc : String → String} {script : Option Script}
    {attrs : List Attr} {chars : List Character} {c : Character} {j : Nat}
    {st st' : BState}
    (h : processChar nfc script attrs chars c j st = .ok st')
    (hij : st.i ≤ j) : st'.i ≤ j := by
  by_cases hws : pyIsSpace c.char = true
  · rw [processChar_ws hws] at h
    injection h with h
    rw [← h]
    exact hij
  · unfold processChar at h
    rw [if_neg hws] at h
    simp only at h
    by_cases hc : (fmtFalsy st.fmt ||
        decide (st.fmt ≠ some (attrs.map (getattrB c.format)))) = true
    · rw [if_pos hc] at h
      by_cases hn : popCountG c.format st.levels ≠ 0
      · rw [if_pos hn] at h
        cases hcol : collapseN nfc script chars j
            (popCountG c.format st.levels) st with
        | error e =>
          rw [hcol, exceptBind_err] at h
          cases h
        | ok st1 =>
          rw [hcol, exceptBind_ok] at h
          cases hopen : openLoop nfc script chars j
              (attrs.zip (attrs.map (getattrB c.format))) st1 with
          | error e =>
            rw [hopen, exceptBind_err] at h
            cases h
          | ok st2 =>
            rw [hopen, exceptBind_ok] at h
            injection h with h
            have h4 : st2.i ≤ j := openLoop_i_le _ _ _ hopen (collapseN_i_le hcol hij)
            rw [← h]
            exact h4
      · rw [if_neg hn] at h
        rw [exceptPure_eq, exceptBind_ok] at h
        cases hopen : openLoop nfc script chars j
            (attrs.zip (attrs.map (getattrB c.format))) st with
        | error e =>
          rw [hopen, exceptBind_err] at h
          cases h
        | ok st2 =>
          rw [hopen, exceptBind_ok] at h
          injection h with h
          have h4 : st2.i ≤ j := openLoop_i_le _ _ _ hopen hij
          rw [← h]
          exact h4
    · rw [if_neg hc] at h
      injection h with h
      rw [← h]
      exact hij

theorem buildLoop_abs {nfc : String → String} {script : Option Script}
    {attrs : List Attr} {chars : List Character} :
    ∀ (rest : List Character) (j : Nat) (st st' : BState),
      buildLoop nfc script attrs chars rest j st = .ok st' →
      absState st' = skelRun attrs rest (absState st) := by
  intro rest
  induction rest with
  | nil =>
    intro j st st' h
    injection h with h
    rw [← h]
    rfl
  | cons c rest ih =>
    intro j st st' h
    unfold buildLoop at h
    cases hp : processChar nfc script attrs chars c j st with
    | error e =>
      rw [hp, exceptBind_err] at h
      cases h
    | ok st1 =>
      rw [hp, exceptBind_ok] at h
      have h1 := processChar_abs hp
      have h2 := ih (j + 1) st1 st' h
      rw [h2, h1]
      rfl

theorem buildLoop_all_ws {nfc : String → String} {script : Option Script}
    {attrs : List Attr} {chars : List Character} :
    ∀ (rest : List Character) (j : Nat) (st : BState),
      (∀ c ∈ rest, pyIsSpace c.char = true) →
      buildLoop nfc script attrs chars rest j st = .ok st := by
  intro rest
  induction rest with
  | nil => intro j st _; rfl
  | cons c rest ih =>
    intro j st hall
    unfold buildLoop
    rw [processChar_ws (hall c (by simp)), exceptBind_ok]
    exact ih (j + 1) st (fun x hx => hall x (by simp [hx]))

theorem buildLoop_i_lt {nfc : String → String} {script : Option Script}
    {attrs : List Attr} {chars : List Character} :
    ∀ (rest : List Character) (j : Nat) (st st' : BState),
      buildLoop nfc script attrs chars rest j st = .ok st' →
      st.i ≤ j → nwFilter rest ≠ [] → st'.i < j + rest.length := by
  intro rest
  induction rest with
  | nil =>
    intro j st st' _ _ hnw
    exact absurd rfl hnw
  | cons c rest ih =>
    intro j st st' h hij hnw
    unfold buildLoop at h
    cases hp : processChar nfc script attrs chars c j st with
    | error e =>
      rw [hp, exceptBind_err] at h
      cases h
    | ok st1 =>
      rw [hp, exceptBind_ok] at h
      by_cases hws : pyIsSpace c.char = true
      · have hst : st1 = st := by
          rw [processChar_ws hws] at hp
          injection hp with hp
          rw [hp]
        have hnw2 : nwFilter rest ≠ [] := by
          simpa [nwFilter, List.filter_cons, hws] using hnw
        have := ih (j + 1) st1 st' h (by rw [hst]; omega) hnw2
        simp only [List.length_cons]
        omega
      · have hi1 : st1.i ≤ j := processChar_i_le hp hij
        by_cases hrest : nwFilter rest = []
        · have hall : ∀ x ∈ rest, pyIsSpace x.char = true := by
            intro x hx
            by_contra hxx
            have hmem : x ∈ nwFilter rest :=
              List.mem_filter.mpr ⟨hx, by simpa using hxx⟩
            rw [hrest] at hmem
            cases hmem
          rw [buildLoop_all_ws rest (j + 1) st1 hall] at h
          injection h with h
          rw [← h]
          simp only [List.length_cons]
          omega
        · have := ih (j + 1) st1 st' h (by omega) hrest
          simp only [List.length_cons]
          omega

theorem skelRun_nwFilter (attrs : List Attr) :
    ∀ (cs : List Character) (st : SkelSt),
      skelRun attrs cs st = skelRun attrs (nwFilter cs) st := by
  intro cs
  induction cs with
  | nil => intro st; rfl
  | cons c rest ih =>
    intro st
    by_cases hws : pyIsSpace c.char = true
    · have h1 : nwFilter (c :: rest) = nwFilter rest := by
        simp [nwFilter, List.filter_cons, hws]
      rw [h1]
      unfold skelRun
      simp only [List.foldl_cons]
      rw [skelStep_ws hws]
      exact ih st
    · have h1 : nwFilter (c :: rest) = c :: nwFilter rest := by
        simp [nwFilter, List.filter_cons, hws]
      rw [h1]
      unfold skelRun
      simp only [List.foldl_cons]
      exact ih (skelStep attrs c st)

/-- The skeleton of the markup built by `formatted_text` is a function of
the non-whitespace characters alone. -/
theorem formatted_text_skel {nfc : String → String} {script : Option Script}
    {attrs : List Attr} {chars : List Character} {m : Markup}
    (h : formatted_text nfc script attrs chars = .ok m) :
    skelListOf m.content = skelOutput attrs (nwFilter chars) := by
  unfold formatted_text at h
  cases hb : buildLoop nfc script attrs chars chars 0 ⟨0, [], [], none⟩ with
  | error e =>
    rw [hb, exceptBind_err] at h
    cases h
  | ok stf =>
    rw [hb, exceptBind_ok] at h
    have habs : absState stf = skelRun attrs (nwFilter chars) ⟨[], [], none⟩ := by
      have h1 := buildLoop_abs chars 0 _ _ hb
      have h2 : absState (⟨0, [], [], none⟩ : BState) = (⟨[], [], none⟩ : SkelSt) := rfl
      rw [h1, h2, ← skelRun_nwFilter]
    by_cases hi : stf.i < chars.length
    · rw [if_pos hi] at h
      cases hpush : pushNode nfc script chars chars.length true stf with
      | error e =>
        rw [hpush, exceptBind_err] at h
        cases h
      | ok st1 =>
        rw [hpush, exceptBind_ok] at h
        injection h with h
        rw [← h]
        have hroot : skelListOf (popN st1.levels.length st1).root =
            (sPopN st1.levels.length (absState st1)).root := by
          rw [← absState_popN]
          rfl
        have hlev : st1.levels.length = (absState st1).levels.length := by
          unfold absState
          simp
        show skelListOf (popN st1.levels.length st1).root =
          skelOutput attrs (nwFilter chars)
        rw [hroot, pushNode_abs hpush, habs]
        rw [pushNode_abs hpush, habs] at hlev
        rw [hlev]
        rfl
    · rw [if_neg hi] at h
      injection h with h
      rw [← h]
      have hnw : nwFilter chars = [] := by
        by_contra hnw
        have := buildLoop_i_lt chars 0 ⟨0, [], [], none⟩ stf hb (by simp) hnw
        omega
      rw [hnw] at habs ⊢
      show skelListOf stf.root = skelOutput attrs []
      have : skelListOf stf.root = (absState stf).root := rfl
      rw [this, habs]
      rfl

/-! ## Claim theorem: whitespace neutrality (C8) -/

/-- C8: the non-leaf node structure (skeleton) of the markup produced by
the builder depends only on the subsequence of non-whitespace characters:
inserting or removing whitespace-only characters (which leaves every
non-whitespace character, and hence its style, unchanged) never changes the
set of non-leaf node boundaries, only leaf text content. -/
theorem c8_whitespace_neutrality (nfc : String → String)
    (script : Option Script) (attrs : List Attr)
    (cs1 cs2 : List Character) (m1 m2 : Markup)
    (hf : nwFilter cs1 = nwFilter cs2)
    (h1 : formatted_text nfc script attrs cs1 = .ok m1)
    (h2 : formatted_text nfc script attrs cs2 = .ok m2) :
    skelListOf m1.content = skelListOf m2.content := by
  rw [formatted_text_skel h1, formatted_text_skel h2, hf]

/-! ## The duplicate-tag invariant of the skeleton machine -/

theorem skelListOkB_append (forb : List Attr) :
    ∀ a b : List SkelNode,
      skelListOkB forb (a ++ b) = (skelListOkB forb a && skelListOkB forb b) := by
  intro a b
  induction a with
  | nil => simp [skelListOkB]
  | cons s ss ih =>
    simp [skelListOkB, ih, Bool.and_assoc]

theorem any_eq_contains (a : Attr) : ∀ l : List (Attr × List SkelNode),
    (l.any fun x => decide (x.1 = a)) = (l.map Prod.fst).contains a := by
  intro l
  induction l with
  | nil => rfl
  | cons x xs ih =>
    rcases x with ⟨t, b⟩
    simp only [List.any_cons, List.map_cons, List.contains_cons, ih]
    by_cases ht : t = a
    · simp [ht]
    · simp [ht, Ne.symm ht]

theorem sAppendTop_inv {st : SkelSt} {n : SkelNode} (hst : InvS st)
    (hn : skelOkB (st.levels.map Prod.fst) n = true) :
    InvS (sAppendTop n st) := by
  obtain ⟨hroot, hlev⟩ := hst
  unfold sAppendTop
  cases hl : st.levels with
  | nil =>
    refine ⟨?_, by rw [hl] at hlev; exact hlev⟩
    simp only
    rw [skelListOkB_append]
    rw [hl] at hn
    simp only [List.map_nil] at hn
    simp [hroot, skelListOkB, hn]
  | cons l rest =>
    rcases l with ⟨a, cs⟩
    rw [hl] at hlev hn
    obtain ⟨hc1, hc2, hc3⟩ := hlev
    refine ⟨hroot, ?_, ?_, hc3⟩
    · exact hc1
    · rw [skelListOkB_append]
      simp only [List.map_cons] at hn
      simp [hc2, skelListOkB, hn]

theorem sPopLevel_inv {st : SkelSt} (hst : InvS st) : InvS (sPopLevel st) := by
  unfold sPopLevel
  cases hl : st.levels with
  | nil => exact hst
  | cons l rest =>
    rcases l with ⟨a, cs⟩
    obtain ⟨hroot, hlev⟩ := hst
    rw [hl] at hlev
    obtain ⟨hc1, hc2, hc3⟩ := hlev
    have hsub : InvS { st with levels := rest } := ⟨hroot, hc3⟩
    apply sAppendTop_inv hsub
    show skelOkB (rest.map Prod.fst) (.mk a cs) = true
    simp only [skelOkB]
    rw [hc1, hc2]
    rfl

theorem sPopN_inv : ∀ (n : Nat) {st : SkelSt}, InvS st → InvS (sPopN n st) := by
  intro n
  induction n with
  | zero => intro st h; exact h
  | succ k ih =>
    intro st h
    exact ih (sPopLevel_inv h)

theorem sOpenLoop_inv : ∀ (zs : List (Attr × Bool)) {st : SkelSt},
    InvS st → InvS (sOpenLoop zs st) := by
  intro zs
  induction zs with
  | nil => intro st h; exact h
  | cons z rest ih =>
    intro st h
    rcases z with ⟨a, v⟩
    unfold sOpenLoop
    by_cases hc : (v && !st.levels.any (fun l => decide (l.1 = a))) = true
    · rw [if_pos hc]
      apply ih
      obtain ⟨hroot, hlev⟩ := h
      refine ⟨hroot, ?_, rfl, hlev⟩
      have hany : st.levels.any (fun l => decide (l.1 = a)) = false := by
        rcases Bool.and_eq_true .. |>.mp hc with ⟨_, hr⟩
        simpa using hr
      rw [← any_eq_contains]
      exact hany
    · rw [if_neg hc]
      exact ih h

theorem skelStep_inv {attrs : List Attr} {c : Character} {st : SkelSt}
    (h : InvS st) : InvS (skelStep attrs c st) := by
  unfold skelStep
  by_cases hws : pyIsSpace c.char = true
  · rw [if_pos hws]
    exact h
  · rw [if_neg hws]
    simp only
    by_cases hc : (fmtFalsy st.fmt ||
        decide (st.fmt ≠ some (attrs.map (getattrB c.format)))) = true
    · rw [if_pos hc]
      have h1 : InvS (if popCountG c.format st.levels ≠ 0 then
          sPopN (popCountG c.format st.levels) st else st) := by
        by_cases hn : popCountG c.format st.levels ≠ 0
        · rw [if_pos hn]
          exact sPopN_inv _ h
        · rw [if_neg hn]
          exact h
      have h2 := sOpenLoop_inv (attrs.zip (attrs.map (getattrB c.format))) h1
      exact ⟨h2.1, h2.2⟩
    · rw [if_neg hc]
      exact h

theorem skelRun_inv (attrs : List Attr) :
    ∀ (cs : List Character) {st : SkelSt}, InvS st → InvS (skelRun attrs cs st) := by
  intro cs
  induction cs with
  | nil => intro st h; exact h
  | cons c rest ih =>
    intro st h
    unfold skelRun
    simp only [List.foldl_cons]
    exact ih (skelStep_inv h)

/-- Every skeleton the machine can output is duplicate-tag free. -/
theorem skelOutput_ok (attrs : List Attr) (nws : List Character) :
    skelListOkB [] (skelOutput attrs nws) = true := by
  unfold skelOutput
  have h0 : InvS (⟨[], [], none⟩ : SkelSt) := ⟨rfl, trivial⟩
  have h1 := skelRun_inv attrs nws h0
  exact (sPopN_inv _ h1).1

/-! ## Bridging markup trees and their skeletons -/

mutual

theorem nodeOkB_skel : ∀ (forb : List Attr) (n : MarkupNode),
    nodeOkB forb n = (match skelOf n with
      | none => true
      | some s => skelOkB forb s)
  | _, .text _ => by simp [nodeOkB, skelOf]
  | forb, .node t cs => by
    simp only [nodeOkB, skelOf, skelOkB]
    rw [nodeListOkB_skel (t :: forb) cs]

theorem nodeListOkB_skel : ∀ (forb : List Attr) (ns : List MarkupNode),
    nodeListOkB forb ns = skelListOkB forb (skelListOf ns)
  | _, [] => rfl
  | forb, n :: ns => by
    simp only [nodeListOkB, skelListOf]
    rw [nodeOkB_skel forb n, nodeListOkB_skel forb ns]
    cases skelOf n with
    | none => simp [skelListOkB]
    | some s => simp [skelListOkB]

end

theorem nodeListOkB_forall (forb : List Attr) : ∀ ns : List MarkupNode,
    (nodeListOkB forb ns = true ↔ ∀ n ∈ ns, nodeOkB forb n = true) := by
  intro ns
  induction ns with
  | nil => simp [nodeListOkB]
  | cons n ns ih =>
    simp [nodeListOkB, ih]

/-! ## Claim theorem: no duplicate tags on a path (C2) -/

/-- C2: for every Character sequence and tracked-attribute set, in any
Markup the builder returns, no root-to-leaf path contains two tagged nodes
with the same tag: every node's tag differs from all of its ancestors'
tags. -/
theorem c2_no_duplicate_tags (nfc : String → String) (script : Option Script)
    (attrs : List Attr) (chars : List Character) (m : Markup)
    (h : formatted_text nfc script attrs chars = .ok m) :
    ∀ n ∈ m.content, nodeOkB [] n = true := by
  rw [← nodeListOkB_forall, nodeListOkB_skel, formatted_text_skel h]
  exact skelOutput_ok attrs (nwFilter chars)

/-- Witness for C2 at a concrete input producing nested nodes. -/
theorem c2_witness :
    nodeOkB [] (.node .bold [.text "a", .node .italic [.text "b"]]) = true :=
  c2_no_duplicate_tags id none [Attr.bold, Attr.italic]
    [⟨'a', ⟨none, true, false, false, false⟩⟩,
     ⟨'b', ⟨none, true, true, false, false⟩⟩]
    (Markup.mk [.node .bold [.text "a", .node .italic [.text "b"]]]) rfl
    (.node .bold [.text "a", .node .italic [.text "b"]]) (by simp)

/-- Witness for C8 at a concrete pair of inputs differing only in
whitespace: the leaf content changes, the skeleton does not. -/
theorem c8_witness :
    skelListOf (Markup.mk [.node .bold [.text "a"]]).content =
      skelListOf (Markup.mk [.text " ", .node .bold [.text "a"]]).content :=
  c8_whitespace_neutrality id none [Attr.bold]
    [⟨'a', ⟨none, true, false, false, false⟩⟩]
    [⟨' ', defaultFormat⟩, ⟨'a', ⟨none, true, false, false, false⟩⟩,
     ⟨' ', defaultFormat⟩]
    (Markup.mk [.node .bold [.text "a"]])
    (Markup.mk [.text " ", .node .bold [.text "a"]])
    rfl rfl rfl

end Parsedict
